import Mathlib

/-
Verification of the DT5560 32-channel DAQ monitor core:
the word accumulator, the frame synchronizer and the waveform decoder
of daqMonitor.py / monitor.py (the decode and sync logic is identical
in both files), with the FIFO transport of DT5560Digitizer_Functions.py
modelled as an oracle of read results.
-/

set_option maxRecDepth 100000

namespace DAQ

/-- CHANNELS = 32 in daqMonitor.py. -/
def CHANNELS : Nat := 32

/-- WAVE_LEN = 40 samples per waveform. -/
def WAVE_LEN : Nat := 40

/-- EVENT_HEADER_WORDS = 16. -/
def EVENT_HEADER_WORDS : Nat := 16

/-- WORDS_PER_SAMPLE = 16 (32 channels / 2 per 32-bit word). -/
def WORDS_PER_SAMPLE : Nat := 16

/-- EVENT_WORDS = EVENT_HEADER_WORDS + WORDS_PER_SAMPLE * WAVE_LEN = 656. -/
def EVENT_WORDS : Nat := EVENT_HEADER_WORDS + WORDS_PER_SAMPLE * WAVE_LEN

/-- FIFO_CHUNK = EVENT_WORDS * 2, the chunk size requested from the FIFO. -/
def FIFO_CHUNK : Nat := EVENT_WORDS * 2

/-- SENTINEL is the frame-start marker 0xFFFFFFFF searched for by
np.where(data == 0xFFFFFFFF). -/
def SENTINEL : Nat := 0xFFFFFFFF

/-- Matrix representation for np.zeros((CHANNELS, WAVE_LEN)): a list of
CHANNELS rows, each a list of WAVE_LEN cells. -/
def zerosMatrix (rows cols : Nat) : List (List Nat) :=
  List.replicate rows (List.replicate cols 0)

/-- Model of the numpy cell assignment waves[r, c] = v (out-of-range
indices leave the matrix unchanged, which never happens in the code). -/
def setMat (m : List (List Nat)) (r c : Nat) (v : Nat) : List (List Nat) :=
  m.set r ((m.getD r []).set c v)

/-- Model of the numpy cell read waves[r, c] (0 when out of range). -/
def getMat (m : List (List Nat)) (r c : Nat) : Nat :=
  (m.getD r []).getD c 0

/-- Body of the inner loop of decode_event for sample index i and word
index pair, acting on the state (idx, waves).  Mirrors daqMonitor.py
lines 50-63: once idx has reached len(wave_data) the Python break makes
every remaining iteration a no-op, modelled here by returning the state
unchanged; otherwise the low 16 bits of word go to channel pair*2 and
the high 16 bits to channel pair*2+1, both at time sample i, guarded by
the bound checks chA < CHANNELS and chB < CHANNELS. -/
def decodeStep (waveData : List Nat) (i pair : Nat) (st : Nat × List (List Nat)) :
    Nat × List (List Nat) :=
  let idx := st.1
  let waves := st.2
  if waveData.length ≤ idx then st
  else
    let word := waveData.getD idx 0
    let chA := pair * 2
    let chB := pair * 2 + 1
    let waves := if chA < CHANNELS then setMat waves chA i (word % 65536) else waves
    let waves := if chB < CHANNELS then setMat waves chB i (word / 65536 % 65536) else waves
    (idx + 1, waves)

/-- decode_event of daqMonitor.py lines 44-65: drop the 16 header words,
then walk WAVE_LEN sample groups of WORDS_PER_SAMPLE words each,
unpacking two 16-bit channel amplitudes from every 32-bit word. -/
def decode_event (event : List Nat) : List (List Nat) :=
  let waveData := event.drop EVENT_HEADER_WORDS
  let final :=
    (List.range WAVE_LEN).foldl
      (fun st i =>
        (List.range WORDS_PER_SAMPLE).foldl
          (fun st pair => decodeStep waveData i pair st) st)
      (0, zerosMatrix CHANNELS WAVE_LEN)
  final.2

/-- Shape of the decoded matrix: CHANNELS rows of WAVE_LEN cells, as
allocated by np.zeros((CHANNELS, WAVE_LEN)). -/
def MatShape (m : List (List Nat)) : Prop :=
  m.length = CHANNELS ∧ ∀ row ∈ m, row.length = WAVE_LEN

/-- Invariant of the decode loop after t iterations of the flattened
(sample, word) iteration: the word cursor idx equals min t len, the
matrix shape is preserved, and each cell holds the half of its payload
word when that word has been consumed, and its np.zeros value 0
otherwise. -/
def DecodeInv (waveData : List Nat) (t : Nat) (st : Nat × List (List Nat)) : Prop :=
  st.1 = min t waveData.length ∧ MatShape st.2 ∧
  ∀ ch g, ch < CHANNELS → g < WAVE_LEN →
    getMat st.2 ch g =
      if g * WORDS_PER_SAMPLE + ch / 2 < min t waveData.length then
        (if ch % 2 = 0 then waveData.getD (g * WORDS_PER_SAMPLE + ch / 2) 0 % 65536
         else waveData.getD (g * WORDS_PER_SAMPLE + ch / 2) 0 / 65536 % 65536)
      else 0

/-- Outcome of the frame synchronization step of the acquisition loop
(daqMonitor.py lines 168-178): no sentinel in the buffer, sentinel found
but too few trailing words, or a complete frame slice. -/
inductive FrameResult where
  | noHeader : FrameResult
  | incomplete : Nat → FrameResult
  | frame : List Nat → FrameResult
deriving DecidableEq

/-- Index of the first occurrence of SENTINEL, i.e. hdr[0] for
hdr = np.where(data == 0xFFFFFFFF)[0] (none when hdr.size == 0). -/
def findHeader : List Nat → Option Nat
  | [] => none
  | w :: rest => if w = SENTINEL then some 0 else (findHeader rest).map (· + 1)

/-- Frame synchronization of daqMonitor.py lines 168-178: locate the
first sentinel; if none, the event has no header; if fewer than
EVENT_WORDS words remain from it, the event is incomplete; otherwise
slice data[idx : idx + EVENT_WORDS]. -/
def extract_frame (data : List Nat) : FrameResult :=
  match findHeader data with
  | none => FrameResult.noHeader
  | some idx =>
    if data.length < idx + EVENT_WORDS then FrameResult.incomplete idx
    else FrameResult.frame ((data.drop idx).take EVENT_WORDS)

/-- One iteration of the acquisition loop after accumulation: on a
synchronization failure the event is ignored (continue), otherwise the
frame is decoded (daqMonitor.py lines 168-181). -/
def processEvent (data : List Nat) : Option (List (List Nat)) :=
  match extract_frame data with
  | FrameResult.frame ev => some (decode_event ev)
  | _ => none

/-- The acquisition run over a list of per-event accumulated buffers:
events whose synchronization fails are skipped and the run proceeds
with the next event. -/
def runAcquisition (bufs : List (List Nat)) : List (List (List Nat)) :=
  bufs.filterMap processEvent

/-- Result of one ReadFifo call: the status code returned by
NI_ReadFifo, the chunk buffer, and the count of valid words; the words
delivered to the caller are the first valid words of buf
(np.frombuffer(buf, count=valid)). -/
structure FifoRead where
  err : Int
  buf : List Nat
  valid : Nat
deriving DecidableEq

/-- The word-accumulation loop of daqMonitor.py lines 148-163, with the
successive ReadFifo results supplied by a finite oracle list: while the
buffer holds fewer than EVENT_WORDS words, take the next read; a read
with zero valid words only causes a backoff and retry; otherwise the
valid words are appended in delivery order.  The status code err of
each read is never inspected, exactly as in the source.  none models
the loop still waiting when the oracle is exhausted. -/
def accumulate : List FifoRead → List Nat → Option (List Nat)
  | [], raw_words => if EVENT_WORDS ≤ raw_words.length then some raw_words else none
  | r :: rest, raw_words =>
    if EVENT_WORDS ≤ raw_words.length then some raw_words
    else if r.valid = 0 then accumulate rest raw_words
    else accumulate rest (raw_words ++ r.buf.take r.valid)

/-- An oracle alternating a zero-valid-word read with a full-chunk read,
n times. -/
def altReads (chunk : List Nat) : Nat → List FifoRead
  | 0 => []
  | n + 1 =>
    { err := 0, buf := [], valid := 0 } ::
    { err := 0, buf := chunk, valid := chunk.length } :: altReads chunk n

theorem CHANNELS_eq : CHANNELS = 32 := rfl

theorem WAVE_LEN_eq : WAVE_LEN = 40 := rfl

theorem WORDS_PER_SAMPLE_eq : WORDS_PER_SAMPLE = 16 := rfl

theorem EVENT_HEADER_WORDS_eq : EVENT_HEADER_WORDS = 16 := rfl

theorem EVENT_WORDS_eq : EVENT_WORDS = 656 := rfl

theorem FIFO_CHUNK_eq : FIFO_CHUNK = 1312 := rfl

theorem getD_set_self {α : Type _} {l : List α} {i : Nat} (hi : i < l.length) (v d : α) :
    (l.set i v).getD i d = v := by
  rw [List.getD_eq_getElem?_getD, List.getElem?_set_self hi, Option.getD_some]

theorem getD_set_ne {α : Type _} {l : List α} {i j : Nat} (hij : i ≠ j) (v d : α) :
    (l.set i v).getD j d = l.getD j d := by
  rw [List.getD_eq_getElem?_getD, List.getElem?_set_ne hij, ← List.getD_eq_getElem?_getD]

theorem length_setMat (m : List (List Nat)) (r c v : Nat) :
    (setMat m r c v).length = m.length :=
  List.length_set m r _

theorem rows_setMat {m : List (List Nat)} {W r c v : Nat} (hr : r < m.length)
    (h : ∀ row ∈ m, row.length = W) :
    ∀ row ∈ setMat m r c v, row.length = W := by
  intro row hrow
  rcases List.mem_or_eq_of_mem_set hrow with h1 | h1
  · exact h row h1
  · subst h1
    rw [List.length_set, List.getD_eq_getElem m [] hr]
    exact h _ (List.getElem_mem hr)

theorem rowLen {m : List (List Nat)} {W : Nat} (hrows : ∀ row ∈ m, row.length = W)
    {r : Nat} (hr : r < m.length) : (m.getD r []).length = W := by
  rw [List.getD_eq_getElem m [] hr]
  exact hrows _ (List.getElem_mem hr)

theorem getMat_setMat_self {m : List (List Nat)} {r c : Nat} (v : Nat)
    (hr : r < m.length) (hc : c < (m.getD r []).length) :
    getMat (setMat m r c v) r c = v := by
  unfold getMat setMat
  rw [getD_set_self hr, getD_set_self hc]

theorem getMat_setMat_ne {m : List (List Nat)} {r c r' c' : Nat} (v : Nat)
    (h : r' ≠ r ∨ c' ≠ c) :
    getMat (setMat m r c v) r' c' = getMat m r' c' := by
  unfold getMat setMat
  rcases eq_or_ne r' r with rfl | hne
  · have hc : c' ≠ c := by
      rcases h with h | h
      · exact absurd rfl h
      · exact h
    rcases Nat.lt_or_ge r' m.length with hr | hr
    · rw [getD_set_self hr, getD_set_ne (Ne.symm hc)]
    · rw [List.set_eq_of_length_le hr]
  · rw [getD_set_ne (Ne.symm hne)]

theorem MatShape_setMat {m : List (List Nat)} {r c v : Nat} (h : MatShape m)
    (hr : r < CHANNELS) : MatShape (setMat m r c v) := by
  obtain ⟨hlen, hrows⟩ := h
  exact ⟨by rw [length_setMat, hlen], rows_setMat (hlen ▸ hr) hrows⟩

theorem getMat_setMat_self_of_shape {m : List (List Nat)} {r c : Nat} (v : Nat)
    (h : MatShape m) (hr : r < CHANNELS) (hc : c < WAVE_LEN) :
    getMat (setMat m r c v) r c = v := by
  obtain ⟨hlen, hrows⟩ := h
  exact getMat_setMat_self v (hlen ▸ hr) (by rw [rowLen hrows (hlen ▸ hr)]; exact hc)

theorem MatShape_zeros : MatShape (zerosMatrix CHANNELS WAVE_LEN) := by
  constructor
  · simp [zerosMatrix]
  · intro row hrow
    rw [List.eq_of_mem_replicate hrow]
    simp

theorem getMat_zeros (ch g : Nat) : getMat (zerosMatrix CHANNELS WAVE_LEN) ch g = 0 := by
  unfold getMat zerosMatrix
  have hrow :
      (List.replicate CHANNELS (List.replicate WAVE_LEN 0)).getD ch [] = List.replicate WAVE_LEN 0 ∨
      (List.replicate CHANNELS (List.replicate WAVE_LEN 0)).getD ch [] = [] := by
    rcases Nat.lt_or_ge ch CHANNELS with h | h
    · left
      rw [List.getD_eq_getElem _ _ (by simpa using h)]
      exact List.getElem_replicate ..
    · right
      exact List.getD_eq_default _ _ (by simpa using h)
  rcases hrow with h | h <;> rw [h]
  · rcases Nat.lt_or_ge g WAVE_LEN with h2 | h2
    · rw [List.getD_eq_getElem _ _ (by simpa using h2)]
      exact List.getElem_replicate ..
    · exact List.getD_eq_default _ _ (by simpa using h2)
  · rfl

theorem decodeStep_inv {waveData : List Nat} {i pair t : Nat} {st : Nat × List (List Nat)}
    (hpair : pair < WORDS_PER_SAMPLE) (hi : i < WAVE_LEN)
    (ht : t = i * WORDS_PER_SAMPLE + pair) (h : DecodeInv waveData t st) :
    DecodeInv waveData (t + 1) (decodeStep waveData i pair st) := by
  obtain ⟨hidx, hshape, hcells⟩ := h
  rw [WORDS_PER_SAMPLE_eq] at hpair ht
  by_cases hfull : waveData.length ≤ st.1
  · have h1 : min t waveData.length = waveData.length := by omega
    have h2 : min (t + 1) waveData.length = waveData.length := by omega
    unfold decodeStep
    rw [if_pos hfull]
    refine ⟨by omega, hshape, ?_⟩
    intro ch g hch hg
    rw [hcells ch g hch hg, h1, h2]
  · have hlt : st.1 < waveData.length := Nat.lt_of_not_le hfull
    have hst : st.1 = t := by omega
    have hA : pair * 2 < CHANNELS := by rw [CHANNELS_eq]; omega
    have hB : pair * 2 + 1 < CHANNELS := by rw [CHANNELS_eq]; omega
    unfold decodeStep
    rw [if_neg hfull]
    simp only [if_pos hA, if_pos hB]
    refine ⟨by simp only []; omega, ?_, ?_⟩
    · exact MatShape_setMat (MatShape_setMat hshape hA) hB
    · intro ch g hch hg
      have hcell := hcells ch g hch hg
      rw [CHANNELS_eq] at hch
      rw [WAVE_LEN_eq] at hg
      rw [WORDS_PER_SAMPLE_eq] at hcell ⊢
      by_cases hhit : g = i ∧ ch / 2 = pair
      · obtain ⟨rfl, hchp⟩ := hhit
        have hposlt : g * 16 + ch / 2 < min (t + 1) waveData.length := by omega
        rw [if_pos hposlt]
        rcases Nat.even_or_odd ch with he | ho
        · have hch0 : ch % 2 = 0 := Nat.even_iff.mp he
          have hcheq : ch = pair * 2 := by omega
          subst hcheq
          rw [if_pos hch0]
          rw [getMat_setMat_ne _ (Or.inl (by omega))]
          rw [getMat_setMat_self_of_shape _ hshape hA (by rw [WAVE_LEN_eq]; omega)]
          have : g * 16 + pair * 2 / 2 = st.1 := by omega
          rw [this]
        · have hch1 : ch % 2 = 1 := Nat.odd_iff.mp ho
          have hcheq : ch = pair * 2 + 1 := by omega
          subst hcheq
          rw [if_neg (by omega)]
          rw [getMat_setMat_self_of_shape _ (MatShape_setMat hshape hA) hB
            (by rw [WAVE_LEN_eq]; omega)]
          have : g * 16 + (pair * 2 + 1) / 2 = st.1 := by omega
          rw [this]
      · have hmiss1 : ch ≠ pair * 2 + 1 ∨ g ≠ i := by
          rcases eq_or_ne g i with hgi | hgi
          · left
            intro hc
            exact hhit ⟨hgi, by omega⟩
          · right
            exact hgi
        have hmiss2 : ch ≠ pair * 2 ∨ g ≠ i := by
          rcases eq_or_ne g i with hgi | hgi
          · left
            intro hc
            exact hhit ⟨hgi, by omega⟩
          · right
            exact hgi
        rw [getMat_setMat_ne _ hmiss1, getMat_setMat_ne _ hmiss2, hcell]
        have hne : g * 16 + ch / 2 ≠ t := by
          intro hc
          exact hhit ⟨by omega, by omega⟩
        have hcond : (g * 16 + ch / 2 < min t waveData.length) ↔
            (g * 16 + ch / 2 < min (t + 1) waveData.length) := by omega
        exact if_congr hcond rfl rfl

theorem innerFold_inv (waveData : List Nat) (i : Nat) (hi : i < WAVE_LEN) :
    ∀ n, n ≤ WORDS_PER_SAMPLE → ∀ st, DecodeInv waveData (i * WORDS_PER_SAMPLE) st →
      DecodeInv waveData (i * WORDS_PER_SAMPLE + n)
        ((List.range n).foldl (fun s pair => decodeStep waveData i pair s) st) := by
  intro n
  induction n with
  | zero =>
    intro _ st h
    simpa using h
  | succ k ih =>
    intro hk st h
    rw [List.range_succ, List.foldl_append]
    simp only [List.foldl_cons, List.foldl_nil]
    exact decodeStep_inv (Nat.lt_of_succ_le hk) hi rfl (ih (Nat.le_of_succ_le hk) st h)

theorem outerFold_inv (waveData : List Nat) :
    ∀ n, n ≤ WAVE_LEN → ∀ st, DecodeInv waveData 0 st →
      DecodeInv waveData (n * WORDS_PER_SAMPLE)
        ((List.range n).foldl
          (fun s i => (List.range WORDS_PER_SAMPLE).foldl
            (fun s2 pair => decodeStep waveData i pair s2) s) st) := by
  intro n
  induction n with
  | zero =>
    intro _ st h
    simpa using h
  | succ k ih =>
    intro hk st h
    rw [List.range_succ, List.foldl_append]
    simp only [List.foldl_cons, List.foldl_nil]
    have h2 := innerFold_inv waveData k (Nat.lt_of_succ_le hk) WORDS_PER_SAMPLE
      (Nat.le_refl _) _ (ih (Nat.le_of_succ_le hk) st h)
    have heq : (k + 1) * WORDS_PER_SAMPLE = k * WORDS_PER_SAMPLE + WORDS_PER_SAMPLE := by ring
    rw [heq]
    exact h2

theorem DecodeInv_init (waveData : List Nat) :
    DecodeInv waveData 0 (0, zerosMatrix CHANNELS WAVE_LEN) := by
  refine ⟨by simp, MatShape_zeros, ?_⟩
  intro ch g hch hg
  rw [getMat_zeros]
  rw [if_neg (by omega)]

/-- Pointwise characterization of decode_event, for any input: channel
ch at time sample g holds the low (even ch) or high (odd ch) 16 bits of
payload word g * WORDS_PER_SAMPLE + ch / 2 when that word exists, and 0
otherwise; the output always has the full CHANNELS × WAVE_LEN shape. -/
theorem decode_event_spec (event : List Nat) :
    MatShape (decode_event event) ∧
    ∀ ch g, ch < CHANNELS → g < WAVE_LEN →
      getMat (decode_event event) ch g =
        if g * WORDS_PER_SAMPLE + ch / 2 < (event.drop EVENT_HEADER_WORDS).length then
          (if ch % 2 = 0 then
            (event.drop EVENT_HEADER_WORDS).getD (g * WORDS_PER_SAMPLE + ch / 2) 0 % 65536
           else
            (event.drop EVENT_HEADER_WORDS).getD (g * WORDS_PER_SAMPLE + ch / 2) 0 / 65536 % 65536)
        else 0 := by
  have h := outerFold_inv (event.drop EVENT_HEADER_WORDS) WAVE_LEN (Nat.le_refl _)
    (0, zerosMatrix CHANNELS WAVE_LEN) (DecodeInv_init _)
  obtain ⟨hidx, hshape, hcells⟩ := h
  have hde : decode_event event =
      ((List.range WAVE_LEN).foldl
        (fun s i => (List.range WORDS_PER_SAMPLE).foldl
          (fun s2 pair => decodeStep (event.drop EVENT_HEADER_WORDS) i pair s2) s)
        (0, zerosMatrix CHANNELS WAVE_LEN)).2 := rfl
  rw [hde]
  constructor
  · exact hshape
  · intro ch g hch hg
    have hcell := hcells ch g hch hg
    rw [hcell]
    rw [CHANNELS_eq] at hch
    rw [WAVE_LEN_eq] at hg
    have hcond : (g * WORDS_PER_SAMPLE + ch / 2 <
          min (WAVE_LEN * WORDS_PER_SAMPLE) (event.drop EVENT_HEADER_WORDS).length) ↔
        (g * WORDS_PER_SAMPLE + ch / 2 < (event.drop EVENT_HEADER_WORDS).length) := by
      rw [WAVE_LEN_eq, WORDS_PER_SAMPLE_eq]
      omega
    exact if_congr hcond rfl rfl

theorem findHeader_eq_none {data : List Nat} (h : ∀ w ∈ data, w ≠ SENTINEL) :
    findHeader data = none := by
  induction data with
  | nil => rfl
  | cons w rest ih =>
    simp only [findHeader]
    rw [if_neg (h w (List.mem_cons_self w rest))]
    rw [ih (fun x hx => h x (List.mem_cons_of_mem _ hx))]
    rfl

theorem findHeader_append {junk buf : List Nat} (h : ∀ w ∈ junk, w ≠ SENTINEL) :
    findHeader (junk ++ buf) = (findHeader buf).map (· + junk.length) := by
  induction junk with
  | nil =>
    cases hfb : findHeader buf <;> simp [hfb]
  | cons w rest ih =>
    have hstep : findHeader ((w :: rest) ++ buf) =
        if w = SENTINEL then some 0 else (findHeader (rest ++ buf)).map (· + 1) := rfl
    rw [hstep]
    rw [if_neg (h w (List.mem_cons_self w rest))]
    rw [ih (fun x hx => h x (List.mem_cons_of_mem _ hx))]
    cases hfb : findHeader buf with
    | none => simp
    | some a =>
      simp only [hfb, Option.map_some', List.length_cons]
      have : a + rest.length + 1 = a + (rest.length + 1) := by omega
      rw [this]

theorem findHeader_first {data : List Nat} {i : Nat} (h : findHeader data = some i) :
    ∀ j, j < i → data.getD j 0 ≠ SENTINEL := by
  induction data generalizing i with
  | nil => simp [findHeader] at h
  | cons w rest ih =>
    intro j hj
    by_cases hw : w = SENTINEL
    · simp only [findHeader] at h
      rw [if_pos hw] at h
      injection h with h0
      exact absurd hj (by omega)
    · simp only [findHeader] at h
      rw [if_neg hw] at h
      cases hfr : findHeader rest with
      | none =>
        rw [hfr] at h
        simp at h
      | some k =>
        rw [hfr] at h
        rw [Option.map_some'] at h
        injection h with hk
        cases j with
        | zero => simpa using hw
        | succ j2 =>
          have := ih hfr j2 (by omega)
          simpa using this

theorem extract_frame_eq_of_some {data : List Nat} {idx : Nat}
    (h : findHeader data = some idx) :
    extract_frame data =
      if data.length < idx + EVENT_WORDS then FrameResult.incomplete idx
      else FrameResult.frame ((data.drop idx).take EVENT_WORDS) := by
  unfold extract_frame
  rw [h]

theorem extract_frame_eq_of_none {data : List Nat} (h : findHeader data = none) :
    extract_frame data = FrameResult.noHeader := by
  unfold extract_frame
  rw [h]

theorem accumulate_of_full {reads : List FifoRead} {raw : List Nat}
    (h : EVENT_WORDS ≤ raw.length) : accumulate reads raw = some raw := by
  cases reads <;> simp only [accumulate] <;> rw [if_pos h]

theorem accumulate_cons_zero {r : FifoRead} {rest : List FifoRead} {raw : List Nat}
    (hfull : ¬ EVENT_WORDS ≤ raw.length) (hv : r.valid = 0) :
    accumulate (r :: rest) raw = accumulate rest raw := by
  simp only [accumulate]
  rw [if_neg hfull, if_pos hv]

theorem accumulate_cons_pos {r : FifoRead} {rest : List FifoRead} {raw : List Nat}
    (hfull : ¬ EVENT_WORDS ≤ raw.length) (hv : ¬ r.valid = 0) :
    accumulate (r :: rest) raw = accumulate rest (raw ++ r.buf.take r.valid) := by
  simp only [accumulate]
  rw [if_neg hfull, if_neg hv]

theorem accumulate_spec : ∀ (reads : List FifoRead) (acc buf : List Nat),
    accumulate reads acc = some buf →
    EVENT_WORDS ≤ buf.length ∧
    ∃ consumed rest, reads = consumed ++ rest ∧
      buf = acc ++ (consumed.map (fun r => r.buf.take r.valid)).flatten := by
  intro reads
  induction reads with
  | nil =>
    intro acc buf h
    simp only [accumulate] at h
    by_cases hfull : EVENT_WORDS ≤ acc.length
    · rw [if_pos hfull] at h
      injection h with h
      subst h
      exact ⟨hfull, [], [], rfl, by simp⟩
    · rw [if_neg hfull] at h
      simp at h
  | cons r rest ih =>
    intro acc buf h
    simp only [accumulate] at h
    by_cases hfull : EVENT_WORDS ≤ acc.length
    · rw [if_pos hfull] at h
      injection h with h
      subst h
      exact ⟨hfull, [], r :: rest, rfl, by simp⟩
    · rw [if_neg hfull] at h
      by_cases hv : r.valid = 0
      · rw [if_pos hv] at h
        obtain ⟨h1, consumed, rest2, hsplit, hbuf⟩ := ih acc buf h
        refine ⟨h1, r :: consumed, rest2, by rw [List.cons_append, hsplit], ?_⟩
        rw [hbuf]
        simp [hv]
      · rw [if_neg hv] at h
        obtain ⟨h1, consumed, rest2, hsplit, hbuf⟩ := ih _ buf h
        refine ⟨h1, r :: consumed, rest2, by rw [List.cons_append, hsplit], ?_⟩
        rw [hbuf]
        simp

theorem runAcquisition_skip {data : List Nat} (h : processEvent data = none)
    (rest : List (List Nat)) :
    runAcquisition (data :: rest) = runAcquisition rest := by
  simp [runAcquisition, List.filterMap_cons, h]

/-- Claim C1: for a frame of EVENT_WORDS words whose payload word at
group index g and within-group index p equals low16 + high16 * 2^16,
decoding writes low16 to channel 2p and high16 to channel 2p+1, both at
time sample g. -/
theorem decode_recovers_packed_samples (event : List Nat) (g p low high : Nat)
    (hlen : event.length = EVENT_WORDS) (hg : g < WAVE_LEN) (hp : p < WORDS_PER_SAMPLE)
    (hlow : low < 65536) (hhigh : high < 65536)
    (hw : event.getD (EVENT_HEADER_WORDS + (g * WORDS_PER_SAMPLE + p)) 0 = low + high * 65536) :
    getMat (decode_event event) (2 * p) g = low ∧
    getMat (decode_event event) (2 * p + 1) g = high := by
  obtain ⟨hshape, hcells⟩ := decode_event_spec event
  simp only [WORDS_PER_SAMPLE_eq, WAVE_LEN_eq, CHANNELS_eq, EVENT_HEADER_WORDS_eq,
    EVENT_WORDS_eq] at hlen hg hp hw hcells ⊢
  have hdroplen : (event.drop 16).length = 640 := by
    rw [List.length_drop, hlen]
  have hgetD : (event.drop 16).getD (g * 16 + p) 0 = event.getD (16 + (g * 16 + p)) 0 := by
    rw [List.getD_eq_getElem?_getD, List.getD_eq_getElem?_getD, List.getElem?_drop]
  constructor
  · rw [hcells (2 * p) g (by omega) hg]
    rw [if_pos (show g * 16 + 2 * p / 2 < (event.drop 16).length by rw [hdroplen]; omega)]
    rw [if_pos (show 2 * p % 2 = 0 by omega)]
    have hpos : g * 16 + 2 * p / 2 = g * 16 + p := by omega
    rw [hpos, hgetD, hw]
    omega
  · rw [hcells (2 * p + 1) g (by omega) hg]
    rw [if_pos (show g * 16 + (2 * p + 1) / 2 < (event.drop 16).length by rw [hdroplen]; omega)]
    rw [if_neg (show ¬ (2 * p + 1) % 2 = 0 by omega)]
    have hpos : g * 16 + (2 * p + 1) / 2 = g * 16 + p := by omega
    rw [hpos, hgetD, hw]
    omega

/-- Witness for C1 at a concrete frame whose words all equal
0x00090007: channel 0 recovers 7 and channel 1 recovers 9 at sample 0. -/
theorem decode_recovers_packed_samples_witness :
    getMat (decode_event (List.replicate EVENT_WORDS 589831)) 0 0 = 7 ∧
    getMat (decode_event (List.replicate EVENT_WORDS 589831)) 1 0 = 9 :=
  decode_recovers_packed_samples (List.replicate EVENT_WORDS 589831) 0 0 7 9
    (by simp) (by decide) (by decide) (by decide) (by decide) (by decide)

/-- Claim C2 (amended): the accumulation loop never inspects the status
code returned by ReadFifo: replacing every read's status code by an
arbitrary value leaves the result of accumulation unchanged, so a
transport error is not surfaced and the event is not aborted. -/
theorem accumulate_ignores_transport_status (e : Int) :
    ∀ (reads : List FifoRead) (acc : List Nat),
      accumulate (reads.map (fun r => { err := e, buf := r.buf, valid := r.valid })) acc =
      accumulate reads acc := by
  intro reads
  induction reads with
  | nil =>
    intro acc
    rfl
  | cons r rest ih =>
    intro acc
    simp only [List.map_cons, accumulate]
    by_cases hfull : EVENT_WORDS ≤ acc.length
    · rw [if_pos hfull, if_pos hfull]
    · rw [if_neg hfull, if_neg hfull]
      by_cases hv : r.valid = 0
      · rw [if_pos hv, if_pos hv]
        exact ih acc
      · rw [if_neg hv, if_neg hv]
        exact ih _

/-- Counterexample to C2 as stated: a read reporting status code 1 with
zero valid words is silently retried after the backoff; the loop then
consumes the next read and completes the event normally instead of
surfacing the error and aborting. -/
theorem transport_error_not_surfaced :
    accumulate
      [{ err := 1, buf := [], valid := 0 },
       { err := 0, buf := List.replicate EVENT_WORDS 5, valid := EVENT_WORDS }] [] =
      some (List.replicate EVENT_WORDS 5) := by decide

/-- Claim C3: prepending non-sentinel junk words in front of a buffer
from which a frame is extracted changes neither the extracted frame nor
the decoded matrix, and synchronization always selects the first
sentinel occurrence (every word before the reported index differs from
the sentinel). -/
theorem sync_prepend_junk_invariant (junk buf f : List Nat)
    (hjunk : ∀ w ∈ junk, w ≠ SENTINEL)
    (hbuf : extract_frame buf = FrameResult.frame f) :
    extract_frame (junk ++ buf) = FrameResult.frame f ∧
    processEvent (junk ++ buf) = processEvent buf ∧
    ∀ i j, findHeader (junk ++ buf) = some i → j < i → (junk ++ buf).getD j 0 ≠ SENTINEL := by
  have hmain : extract_frame (junk ++ buf) = FrameResult.frame f := by
    cases hfh : findHeader buf with
    | none =>
      rw [extract_frame_eq_of_none hfh] at hbuf
      exact FrameResult.noConfusion hbuf
    | some idx =>
      rw [extract_frame_eq_of_some hfh] at hbuf
      have hfh2 : findHeader (junk ++ buf) = some (idx + junk.length) := by
        rw [findHeader_append hjunk, hfh]
        rfl
      rw [extract_frame_eq_of_some hfh2]
      by_cases hlen : buf.length < idx + EVENT_WORDS
      · rw [if_pos hlen] at hbuf
        exact FrameResult.noConfusion hbuf
      · rw [if_neg hlen] at hbuf
        rw [if_neg (show ¬ (junk ++ buf).length < idx + junk.length + EVENT_WORDS by
          rw [List.length_append]; omega)]
        have hdrop : (junk ++ buf).drop (idx + junk.length) = buf.drop idx := by
          rw [show idx + junk.length = junk.length + idx from by omega]
          rw [← List.drop_drop, List.drop_left]
        rw [hdrop]
        exact hbuf
  refine ⟨hmain, ?_, ?_⟩
  · unfold processEvent
    rw [hmain, hbuf]
  · intro i j hfi hj
    exact findHeader_first hfi j hj

/-- Witness for C3: one junk word 0 in front of a 656-word frame whose
first word is the sentinel leaves the extracted frame unchanged. -/
theorem sync_prepend_junk_invariant_witness :
    extract_frame ([0] ++ (SENTINEL :: List.replicate 655 1)) =
      FrameResult.frame (SENTINEL :: List.replicate 655 1) :=
  (sync_prepend_junk_invariant [0] (SENTINEL :: List.replicate 655 1)
    (SENTINEL :: List.replicate 655 1) (by decide) (by decide)).1

/-- Claim C4: a first sentinel at offset idx with fewer than EVENT_WORDS
words remaining from it yields the incomplete-frame outcome, no matrix
is produced for the event, and the run simply proceeds with the
remaining events. -/
theorem sync_incomplete_frame_skips (data : List Nat) (idx : Nat)
    (hfh : findHeader data = some idx) (hshort : data.length < idx + EVENT_WORDS) :
    extract_frame data = FrameResult.incomplete idx ∧
    processEvent data = none ∧
    ∀ rest, runAcquisition (data :: rest) = runAcquisition rest := by
  have hext : extract_frame data = FrameResult.incomplete idx := by
    rw [extract_frame_eq_of_some hfh, if_pos hshort]
  have hproc : processEvent data = none := by
    unfold processEvent
    rw [hext]
  exact ⟨hext, hproc, runAcquisition_skip hproc⟩

/-- Witness for C4: a buffer holding only the sentinel word is judged
incomplete. -/
theorem sync_incomplete_frame_skips_witness :
    extract_frame [SENTINEL] = FrameResult.incomplete 0 :=
  (sync_incomplete_frame_skips [SENTINEL] 0 (by decide) (by decide)).1

/-- Claim C5: a buffer containing no sentinel word yields the
no-header outcome; the event is discarded without decoding and the run
proceeds with the remaining events. -/
theorem sync_no_sentinel_skips (data : List Nat)
    (h : ∀ w ∈ data, w ≠ SENTINEL) :
    extract_frame data = FrameResult.noHeader ∧
    processEvent data = none ∧
    ∀ rest, runAcquisition (data :: rest) = runAcquisition rest := by
  have hext : extract_frame data = FrameResult.noHeader :=
    extract_frame_eq_of_none (findHeader_eq_none h)
  have hproc : processEvent data = none := by
    unfold processEvent
    rw [hext]
  exact ⟨hext, hproc, runAcquisition_skip hproc⟩

/-- Witness for C5: a sentinel-free buffer yields the no-header
outcome. -/
theorem sync_no_sentinel_skips_witness :
    extract_frame [1, 2, 3] = FrameResult.noHeader :=
  (sync_no_sentinel_skips [1, 2, 3] (by decide)).1

/-- Claim C6: when the accumulator returns a buffer, the buffer holds
at least EVENT_WORDS words and is exactly the concatenation, in
delivery order, of the valid-word portions of the consumed FIFO reads;
the buffer is handed on whole, never truncated to the target. -/
theorem accumulate_returns_whole_concat (reads : List FifoRead) (buf : List Nat)
    (h : accumulate reads [] = some buf) :
    EVENT_WORDS ≤ buf.length ∧
    ∃ consumed rest, reads = consumed ++ rest ∧
      buf = (consumed.map (fun r => r.buf.take r.valid)).flatten := by
  obtain ⟨h1, consumed, rest, hsplit, hbuf⟩ := accumulate_spec reads [] buf h
  exact ⟨h1, consumed, rest, hsplit, by simpa using hbuf⟩

/-- Witness for C6 at a single full-chunk read. -/
theorem accumulate_returns_whole_concat_witness :
    EVENT_WORDS ≤ (List.replicate FIFO_CHUNK 3).length ∧
    ∃ consumed rest,
      [({ err := 0, buf := List.replicate FIFO_CHUNK 3, valid := FIFO_CHUNK } : FifoRead)] =
        consumed ++ rest ∧
      List.replicate FIFO_CHUNK 3 = (consumed.map (fun r => r.buf.take r.valid)).flatten :=
  accumulate_returns_whole_concat
    [{ err := 0, buf := List.replicate FIFO_CHUNK 3, valid := FIFO_CHUNK }]
    (List.replicate FIFO_CHUNK 3) (by
      rw [accumulate_cons_pos (by simp [EVENT_WORDS_eq])
        (show ¬ (FIFO_CHUNK : Nat) = 0 by rw [FIFO_CHUNK_eq]; omega)]
      rw [List.nil_append]
      rw [show (List.replicate FIFO_CHUNK 3).take FIFO_CHUNK = List.replicate FIFO_CHUNK 3 from
        by simp]
      exact @accumulate_of_full [] (List.replicate FIFO_CHUNK 3)
        (by simp [EVENT_WORDS_eq, FIFO_CHUNK_eq]))

/-- Claim C7: with a read oracle alternating zero-valid-word results
and full-chunk results the accumulation loop reaches the target word
count and returns the accumulated buffer; the zero-word reads cause
only a backoff and retry, never an error. -/
theorem accumulate_alternating_reads_terminates (chunk : List Nat) (n : Nat)
    (hc : chunk.length = FIFO_CHUNK) (hn : 1 ≤ n) :
    accumulate (altReads chunk n) [] = some chunk ∧ EVENT_WORDS ≤ chunk.length := by
  have hlen : EVENT_WORDS ≤ chunk.length := by
    rw [hc, FIFO_CHUNK_eq, EVENT_WORDS_eq]
    omega
  obtain ⟨m, rfl⟩ : ∃ m, n = m + 1 := ⟨n - 1, by omega⟩
  refine ⟨?_, hlen⟩
  rw [show altReads chunk (m + 1) =
      { err := 0, buf := [], valid := 0 } ::
      { err := 0, buf := chunk, valid := chunk.length } :: altReads chunk m from rfl]
  rw [accumulate_cons_zero (by simp [EVENT_WORDS_eq]) rfl]
  rw [accumulate_cons_pos (by simp [EVENT_WORDS_eq])
    (show ¬ chunk.length = 0 by rw [hc, FIFO_CHUNK_eq]; omega)]
  rw [List.nil_append, List.take_length]
  exact accumulate_of_full hlen

/-- Witness for C7 with one zero-word read followed by one full chunk. -/
theorem accumulate_alternating_reads_terminates_witness :
    accumulate (altReads (List.replicate FIFO_CHUNK 0) 1) [] =
      some (List.replicate FIFO_CHUNK 0) :=
  (accumulate_alternating_reads_terminates (List.replicate FIFO_CHUNK 0) 1
    (by simp) (by decide)).1

/-- Claim C8: decoding a structurally valid frame of exactly
EVENT_WORDS words always yields a full CHANNELS × WAVE_LEN matrix, and
the defensive bound check drops a computed channel index at or beyond
CHANNELS instead of writing it. -/
theorem decode_total_on_frames (event : List Nat) (hlen : event.length = EVENT_WORDS) :
    ((decode_event event).length = CHANNELS ∧
      ∀ row ∈ decode_event event, row.length = WAVE_LEN) ∧
    ∀ waveData i pair st, CHANNELS ≤ pair * 2 →
      (decodeStep waveData i pair st).2 = st.2 := by
  constructor
  · exact (decode_event_spec event).1
  · intro waveData i pair st hge
    unfold decodeStep
    by_cases hfull : waveData.length ≤ st.1
    · rw [if_pos hfull]
    · rw [if_neg hfull]
      simp only []
      rw [if_neg (show ¬ pair * 2 + 1 < CHANNELS by omega)]
      rw [if_neg (show ¬ pair * 2 < CHANNELS by omega)]

/-- Witness for C8 at the all-zero frame. -/
theorem decode_total_on_frames_witness :
    (decode_event (List.replicate EVENT_WORDS 0)).length = CHANNELS :=
  (decode_total_on_frames (List.replicate EVENT_WORDS 0) (by simp)).1.1

/-- Claim C9: the decoded matrix does not depend on the reserved header
words: two frames of EVENT_WORDS words agreeing on word 0 and on every
word from index EVENT_HEADER_WORDS on decode to identical matrices,
whatever their words 1..EVENT_HEADER_WORDS-1 are. -/
theorem decode_ignores_header_words (e1 e2 : List Nat)
    (h1 : e1.length = EVENT_WORDS) (h2 : e2.length = EVENT_WORDS)
    (h0 : e1.getD 0 0 = e2.getD 0 0)
    (hpay : ∀ k, k < EVENT_WORDS → EVENT_HEADER_WORDS ≤ k → e1.getD k 0 = e2.getD k 0) :
    decode_event e1 = decode_event e2 := by
  have hdrop : e1.drop EVENT_HEADER_WORDS = e2.drop EVENT_HEADER_WORDS := by
    apply List.ext_getElem?
    intro n
    rw [List.getElem?_drop, List.getElem?_drop]
    rcases Nat.lt_or_ge (EVENT_HEADER_WORDS + n) EVENT_WORDS with hn | hn
    · rw [List.getElem?_eq_getElem (show EVENT_HEADER_WORDS + n < e1.length by omega),
        List.getElem?_eq_getElem (show EVENT_HEADER_WORDS + n < e2.length by omega)]
      have hk := hpay (EVENT_HEADER_WORDS + n) hn (by omega)
      rw [List.getD_eq_getElem e1 0 (show EVENT_HEADER_WORDS + n < e1.length by omega),
        List.getD_eq_getElem e2 0 (show EVENT_HEADER_WORDS + n < e2.length by omega)] at hk
      rw [hk]
    · rw [List.getElem?_eq_none (show e1.length ≤ EVENT_HEADER_WORDS + n by omega),
        List.getElem?_eq_none (show e2.length ≤ EVENT_HEADER_WORDS + n by omega)]
  unfold decode_event
  rw [hdrop]

/-- Witness for C9: two concrete frames differing only in header word 1
decode identically. -/
theorem decode_ignores_header_words_witness :
    decode_event (List.replicate EVENT_WORDS 7) =
      decode_event (7 :: 9 :: List.replicate 654 7) :=
  decode_ignores_header_words (List.replicate EVENT_WORDS 7) (7 :: 9 :: List.replicate 654 7)
    (by simp) (by simp [EVENT_WORDS_eq]) (by decide)
    (by
      intro k hk h16
      rw [EVENT_WORDS_eq] at hk
      rw [EVENT_HEADER_WORDS_eq] at h16
      obtain ⟨k2, rfl⟩ : ∃ k2, k = k2 + 2 := ⟨k - 2, by omega⟩
      have hL : (List.replicate EVENT_WORDS 7).getD (k2 + 2) 0 = 7 := by
        rw [List.getD_eq_getElem _ _ (by simp [EVENT_WORDS_eq]; omega)]
        exact List.getElem_replicate ..
      have hR : (7 :: 9 :: List.replicate 654 7).getD (k2 + 2) 0 = 7 := by
        rw [List.getD_cons_succ, List.getD_cons_succ]
        rw [List.getD_eq_getElem _ _ (by simp; omega)]
        exact List.getElem_replicate ..
      rw [hL, hR])

/-- Claim C10: on any input shorter than EVENT_WORDS words, including
the empty one, decode_event still returns a full CHANNELS × WAVE_LEN
matrix, and every cell whose payload word is not available holds 0. -/
theorem decode_short_input_zeros (event : List Nat) (hshort : event.length < EVENT_WORDS) :
    ((decode_event event).length = CHANNELS ∧
      ∀ row ∈ decode_event event, row.length = WAVE_LEN) ∧
    ∀ ch g, ch < CHANNELS → g < WAVE_LEN →
      event.length ≤ EVENT_HEADER_WORDS + (g * WORDS_PER_SAMPLE + ch / 2) →
      getMat (decode_event event) ch g = 0 := by
  obtain ⟨hshape, hcells⟩ := decode_event_spec event
  refine ⟨hshape, ?_⟩
  intro ch g hch hg hcover
  rw [hcells ch g hch hg]
  rw [if_neg (show ¬ g * WORDS_PER_SAMPLE + ch / 2 < (event.drop EVENT_HEADER_WORDS).length by
    rw [List.length_drop]
    omega)]

/-- Witness for C10 at the empty input. -/
theorem decode_short_input_zeros_witness :
    getMat (decode_event []) 0 0 = 0 :=
  (decode_short_input_zeros [] (by decide)).2 0 0 (by decide) (by decide) (by decide)

end DAQ
